import Mathlib

/-!
Shallow embedding of src/similarities.pyx from the Surprise repository.

Modelling conventions:
* The rating table yr (a Python dict mapping an other-axis id y to a list of
  (x, rating) pairs, iterated with yr.items()) is embedded as a list of
  (y, list (x, rating)) entries, in iteration order.
* Entity ids are Nat and ratings are Int (the source declares cdef int r1, r2).
* The numpy double accumulators only ever hold exact integer or rational
  values under the source formulas, so they are embedded as exact rationals;
  the combination formulas that involve np.sqrt are embedded over the reals.
* A numpy 2-d array is embedded as a total function Nat -> Nat -> value with
  pointwise update; the triple accumulation loop and the final triangular
  fill-and-mirror loop of the source are embedded as left folds that mirror
  the source's mutation order.  The source updates several accumulator
  matrices inside one loop nest; the updates are independent of each other,
  so each accumulator is embedded as its own fold over the same traversal.
-/

namespace Surprise

/-- One y's rating list, in source order: entries (x, r). -/
abbrev YRatings : Type := List (Nat × Int)

/-- The yr structure: entries (y, y_ratings), in dict iteration order. -/
abbrev YR : Type := List (Nat × YRatings)

/-- Dense 2-d array, embedded as a total function on indices. -/
def Mat (α : Type) : Type := Nat → Nat → α

/-- Array read m[i, j]. -/
def mget {α : Type} (m : Mat α) (i j : Nat) : α := m i j

/-- Array write m[i, j] = v. -/
def mset {α : Type} (m : Mat α) (i j : Nat) (v : α) : Mat α :=
  fun a b => if a = i ∧ b = j then v else m a b

/-- np.zeros((n_x, n_x)): every cell starts at z. -/
def mzero {α : Type} (z : α) : Mat α := fun _ _ => z

/-- In-place accumulation m[i, j] += v. -/
def bump {α : Type} [Add α] (m : Mat α) (i j : Nat) (v : α) : Mat α :=
  mset m i j (mget m i j + v)

/-- The two inner loops of the shared traversal: for (xi, r1) in y_ratings,
for (xj, r2) in y_ratings, acc[xi, xj] += f xi xj r1 r2. -/
def accList {α : Type} [Add α] (f : Nat → Nat → Int → Int → α)
    (ys : YRatings) (m : Mat α) : Mat α :=
  ys.foldl (fun m1 p => ys.foldl (fun m2 q => bump m2 p.1 q.1 (f p.1 q.1 p.2 q.2)) m1) m

/-- The full shared accumulation traversal over yr.items(), starting from a
zero matrix. -/
def accLoop {α : Type} [Add α] [Zero α] (f : Nat → Nat → Int → Int → α)
    (yr : YR) : Mat α :=
  yr.foldl (fun m y => accList f y.2 m) (mzero 0)

/-- freq accumulator: number of common ys. -/
def freqM (yr : YR) : Mat Int := accLoop (fun _ _ _ _ => 1) yr

/-- prods accumulator: sum (r_xy * r_x'y) for common ys. -/
def prodsM (yr : YR) : Mat Int := accLoop (fun _ _ r1 r2 => r1 * r2) yr

/-- sqi accumulator: sum (r_xy ^ 2) for common ys. -/
def sqiM (yr : YR) : Mat Int := accLoop (fun _ _ r1 _ => r1 ^ 2) yr

/-- sqj accumulator: sum (r_x'y ^ 2) for common ys. -/
def sqjM (yr : YR) : Mat Int := accLoop (fun _ _ _ r2 => r2 ^ 2) yr

/-- si accumulator (pearson): sum (r_xy) for common ys. -/
def siM (yr : YR) : Mat Int := accLoop (fun _ _ r1 _ => r1) yr

/-- sj accumulator (pearson): sum (r_x'y) for common ys. -/
def sjM (yr : YR) : Mat Int := accLoop (fun _ _ _ r2 => r2) yr

/-- sq_diff accumulator of msd: sum (r1 - r2)**2 for common ys (a double in
the source, holding exact integer values). -/
def sqDiffM (yr : YR) : Mat ℚ := accLoop (fun _ _ r1 r2 => (((r1 - r2 : Int) : ℚ)) ^ 2) yr

/-- diff accumulator of compute_mean_diff: sum (r1 - r2) for common ys. -/
def diffM (yr : YR) : Mat ℚ := accLoop (fun _ _ r1 r2 => ((r1 - r2 : Int) : ℚ)) yr

/-- One step of the inner triangular fill loop at row xi, column xj:
conditionally write the cell value and mirror it through g.  For the
similarity functions the write is unconditional and g is the identity
(sim[xj, xi] = sim[xi, xj]); for compute_mean_diff the write happens only
when freq is nonzero and g is negation (mean_diff[xj, xi] = -mean_diff[xi, xj]). -/
def fillStep {α : Type} (g : α → α) (wr : Nat → Nat → Bool) (cell : Nat → Nat → α)
    (xi : Nat) (sim : Mat α) (xj : Nat) : Mat α :=
  if wr xi xj then
    let sim2 := mset sim xi xj (cell xi xj)
    mset sim2 xj xi (g (mget sim2 xi xj))
  else sim

/-- The body of the outer fill loop at row xi: set the diagonal sentinel, then
run the inner loop for xj in range(xi + 1, n_x). -/
def fillRow {α : Type} (n : Nat) (diag : α) (g : α → α) (wr : Nat → Nat → Bool)
    (cell : Nat → Nat → α) (sim : Mat α) (xi : Nat) : Mat α :=
  (List.range' (xi + 1) (n - (xi + 1))).foldl (fillStep g wr cell xi) (mset sim xi xi diag)

/-- The final double fill loop shared by all five functions: for xi in
range(n_x), set the diagonal, fill the upper triangle, mirror. -/
def fillMat {α : Type} (n : Nat) (z diag : α) (g : α → α) (wr : Nat → Nat → Bool)
    (cell : Nat → Nat → α) : Mat α :=
  (List.range n).foldl (fillRow n diag g wr cell) (mzero z)

/-- The cosine function of the source: accumulate freq, prods, sqi, sqj, then
sim[xi, xi] = 1 and for xj > xi, sim = 0 if freq == 0 else
prods / np.sqrt(sqi * sqj), mirrored. -/
noncomputable def cosine (n : Nat) (yr : YR) : Mat ℝ :=
  fillMat n 0 1 id (fun _ _ => true)
    (fun i j =>
      if freqM yr i j = 0 then 0
      else ((prodsM yr i j : ℤ) : ℝ) / Real.sqrt (((sqiM yr i j * sqjM yr i j : ℤ) : ℝ)))

/-- The msd function of the source: accumulate sq_diff and freq, then
sim[xi, xi] = 100 and for xj > xi, sim = freq if sq_diff == 0 else
freq / sq_diff, mirrored. -/
def msd (n : Nat) (yr : YR) : Mat ℚ :=
  fillMat n 0 100 id (fun _ _ => true)
    (fun i j =>
      if sqDiffM yr i j = 0 then ((freqM yr i j : ℤ) : ℚ)
      else ((freqM yr i j : ℤ) : ℚ) / sqDiffM yr i j)

/-- The compute_mean_diff function of the source: accumulate diff and freq,
then mean_diff[xi, xi] = 0 and for xj > xi, if freq is nonzero,
mean_diff[xi, xj] = diff / freq and mean_diff[xj, xi] = -mean_diff[xi, xj]. -/
def compute_mean_diff (n : Nat) (yr : YR) : Mat ℚ :=
  fillMat n 0 0 (fun v => -v) (fun i j => freqM yr i j != 0)
    (fun i j => diffM yr i j / ((freqM yr i j : ℤ) : ℚ))

/-- The mean-adjusted sq_diff accumulator of msdClone: sum
(r1 - r2 - mean_diff[xi, xj])**2 for common ys, where mean_diff is the matrix
computed by compute_mean_diff before the traversal starts. -/
def cloneSqDiffM (n : Nat) (yr : YR) : Mat ℚ :=
  accLoop (fun i j r1 r2 => ((r1 : ℚ) - (r2 : ℚ) - compute_mean_diff n yr i j) ^ 2) yr

/-- The msdClone function of the source: first compute mean_diff, accumulate
the mean-adjusted sq_diff and freq, then combine exactly as msd does. -/
def msdClone (n : Nat) (yr : YR) : Mat ℚ :=
  fillMat n 0 100 id (fun _ _ => true)
    (fun i j =>
      if cloneSqDiffM n yr i j = 0 then ((freqM yr i j : ℤ) : ℚ)
      else ((freqM yr i j : ℤ) : ℚ) / cloneSqDiffM n yr i j)

/-- The pearson function of the source: accumulate freq, prods, sqi, sqj, si,
sj; then sim[xi, xi] = 1 and for xj > xi, with n = freq,
num = n * prods - si * sj, denum = np.sqrt((n * sqi - si^2) * (n * sqj - sj^2)),
sim = 0 if denum == 0 else num / denum, mirrored. -/
noncomputable def pearson (n : Nat) (yr : YR) : Mat ℝ :=
  fillMat n 0 1 id (fun _ _ => true)
    (fun i j =>
      if Real.sqrt ((((freqM yr i j * sqiM yr i j - siM yr i j ^ 2) *
            (freqM yr i j * sqjM yr i j - sjM yr i j ^ 2) : ℤ) : ℝ)) = 0 then 0
      else ((freqM yr i j * prodsM yr i j - siM yr i j * sjM yr i j : ℤ) : ℝ) /
        Real.sqrt ((((freqM yr i j * sqiM yr i j - siM yr i j ^ 2) *
            (freqM yr i j * sqjM yr i j - sjM yr i j ^ 2) : ℤ) : ℝ)))

/-- The rating an entity i gets in one y's list, if any (well-formedness makes
it unique). -/
def ratingOf (ys : YRatings) (i : Nat) : Option Int :=
  (ys.find? (fun p => p.1 == i)).map Prod.snd

/-- The list of co-rating pairs of entities i and j: for each y rated by both,
the pair (r_i, r_j), in yr order. -/
def coPairs (yr : YR) (i j : Nat) : List (Int × Int) :=
  yr.filterMap (fun y => (ratingOf y.2 i).bind (fun a => (ratingOf y.2 j).map (fun b => (a, b))))

/-- Number of ys co-rated by i and j. -/
def coCount (yr : YR) (i j : Nat) : Nat := (coPairs yr i j).length

/-- Sum of f r_i r_j over the ys co-rated by i and j. -/
def coSum {α : Type} [AddCommMonoid α] (f : Int → Int → α) (yr : YR) (i j : Nat) : α :=
  ((coPairs yr i j).map (fun p => f p.1 p.2)).sum

/-- Well-formedness of one y rating list: each x appears at most once, and
all x ids are below n_x. -/
abbrev wfY (n : Nat) (ys : YRatings) : Prop :=
  (ys.map Prod.fst).Nodup ∧ ∀ p ∈ ys, p.1 < n

/-- Well-formedness of the yr structure. -/
abbrev wf (n : Nat) (yr : YR) : Prop := ∀ y ∈ yr, wfY n y.2

/-- The worked example of the specification: n_x = 3,
yr = 0: [(0,4),(1,4),(2,1)], 1: [(0,5),(1,5)]. -/
def yrEx : YR := [(0, [(0, 4), (1, 4), (2, 1)]), (1, [(0, 5), (1, 5)])]

/-- Two entities whose ratings satisfy r_1 = 2 * r_0 + 1 on both common ys. -/
def yrAff : YR := [(0, [(0, 1), (1, 3)]), (1, [(0, 2), (1, 5)])]

/-- Two entities with a single common y; entity 1's rating is 1 * r_0 + 1. -/
def yrConst : YR := [(0, [(0, 2), (1, 3)])]

/-- Two entities sharing one y on which both ratings are 0. -/
def yrZero : YR := [(0, [(0, 0), (1, 0)])]

/-- Two entities sharing one y, with nonzero ratings. -/
def yrNZ : YR := [(0, [(0, 1), (1, 2)])]

/-- Two entities that never co-occur under any y. -/
def yrSplit : YR := [(0, [(0, 4)]), (1, [(1, 5)])]

/-- Raw input as the Python/Cython runtime sees it: ids are arbitrary machine
integers before any bounds handling. -/
abbrev RawYR : Type := List (Int × List (Int × Int))

/-- Runtime semantics of indexing a Cython-typed numpy buffer of side n with a
cdef int index (default directives): an index in [0, n) is used as is, an
index in [-n, 0) silently wraps around to n + i, anything else raises
IndexError. -/
def resolveIdx (n : Int) (i : Int) : Except String Int :=
  if 0 ≤ i ∧ i < n then Except.ok i
  else if -n ≤ i ∧ i < 0 then Except.ok (n + i)
  else Except.error "index out of bounds"

/-- Resolve a list of x ids in traversal order, propagating the first failure. -/
def checkIds (n : Int) : List Int → Except String Unit
  | [] => Except.ok ()
  | i :: t =>
    match resolveIdx n i with
    | Except.error e => Except.error e
    | Except.ok _ => checkIds n t

/-- Runtime input-handling behaviour shared by all four similarity functions:
np.zeros((n_x, n_x)) raises ValueError on a negative n_x, and otherwise the
accumulation traversal resolves every x id occurring in yr against the buffer
side n_x, in order.  The source contains no validation of its own; this models
what the numpy allocation and the Cython buffer accesses do. -/
def simInputCheck (n : Int) (yr : RawYR) : Except String Unit :=
  if n < 0 then Except.error "negative dimensions are not allowed"
  else checkIds n ((yr.map (fun y => y.2.map Prod.fst)).flatten)

/-- Reading back a just-written cell. -/
theorem mget_mset_same {α : Type} (m : Mat α) (i j : Nat) (v : α) :
    mget (mset m i j v) i j = v := by
  simp [mget, mset]

/-- A left fold whose step adds a per-element quantity to the observed cell
accumulates the sum of those quantities. -/
theorem foldl_addStep {α β : Type} [AddCommMonoid α] (i j : Nat)
    (step : Mat α → β → Mat α) (s : β → α)
    (hstep : ∀ (m : Mat α) (b : β), step m b i j = m i j + s b) :
    ∀ (L : List β) (m : Mat α), (L.foldl step m) i j = m i j + (L.map s).sum := by
  intro L
  induction L with
  | nil => intro m; simp
  | cons b t ih =>
    intro m
    simp only [List.foldl_cons, List.map_cons, List.sum_cons]
    rw [ih, hstep, add_assoc]

/-- Pointwise reading of one += update. -/
theorem bump_apply {α : Type} [AddCommMonoid α] (m : Mat α) (x y a b : Nat) (v : α) :
    bump m x y v a b = m a b + (if a = x ∧ b = y then v else 0) := by
  unfold bump mset mget
  by_cases h : a = x ∧ b = y
  · obtain ⟨h1, h2⟩ := h
    subst h1; subst h2
    simp
  · simp [h]

/-- The two inner accumulation loops add, to cell (i, j), the sum of
contributions of the index-matching ordered pairs of the list. -/
theorem accList_apply {α : Type} [AddCommMonoid α] (f : Nat → Nat → Int → Int → α)
    (ys : YRatings) (m : Mat α) (i j : Nat) :
    accList f ys m i j = m i j +
      (ys.map (fun p => (ys.map (fun q =>
        if i = p.1 ∧ j = q.1 then f p.1 q.1 p.2 q.2 else 0)).sum)).sum := by
  unfold accList
  refine foldl_addStep i j _ _ (fun m1 p => ?_) ys m
  refine foldl_addStep i j _ (fun q => if i = p.1 ∧ j = q.1 then f p.1 q.1 p.2 q.2 else 0)
    (fun m2 q => ?_) ys m1
  exact bump_apply m2 p.1 q.1 i j (f p.1 q.1 p.2 q.2)

/-- Cell (i, j) of the full accumulation traversal is the sum, over the y
lists, of the contributions of the index-matching ordered pairs. -/
theorem accLoop_apply {α : Type} [AddCommMonoid α] (f : Nat → Nat → Int → Int → α)
    (yr : YR) (i j : Nat) :
    accLoop f yr i j =
      (yr.map (fun y => (y.2.map (fun p => (y.2.map (fun q =>
        if i = p.1 ∧ j = q.1 then f p.1 q.1 p.2 q.2 else 0)).sum)).sum)).sum := by
  unfold accLoop
  have h := foldl_addStep i j (fun m y => accList f y.2 m)
    (fun y => (y.2.map (fun p => (y.2.map (fun q =>
      if i = p.1 ∧ j = q.1 then f p.1 q.1 p.2 q.2 else 0)).sum)).sum)
    (fun m y => accList_apply f y.2 m i j) yr (mzero 0)
  simpa [mzero] using h

/-- A keyed sum over a list that avoids the key is zero. -/
theorem keyedSum_zero {α : Type} [AddCommMonoid α] (j : Nat) (F : Nat × Int → α) :
    ∀ ys : YRatings, (∀ q ∈ ys, q.1 ≠ j) →
      (ys.map (fun q => if j = q.1 then F q else 0)).sum = 0 := by
  intro ys
  induction ys with
  | nil => intro _; simp
  | cons q t ih =>
    intro h
    have hq : q.1 ≠ j := h q (by simp)
    simp only [List.map_cons, List.sum_cons]
    rw [if_neg (fun hh => hq hh.symm), ih (fun r hr => h r (by simp [hr])), add_zero]

/-- With unique keys, a keyed sum picks out the unique matching entry. -/
theorem keyedSum {α : Type} [AddCommMonoid α] (j : Nat) (F : Nat × Int → α) :
    ∀ ys : YRatings, (ys.map Prod.fst).Nodup →
      (ys.map (fun q => if j = q.1 then F q else 0)).sum
        = (ratingOf ys j).elim 0 (fun r => F (j, r)) := by
  intro ys
  induction ys with
  | nil => intro _; simp [ratingOf]
  | cons q t ih =>
    intro hnd
    simp only [List.map_cons, List.nodup_cons] at hnd
    obtain ⟨hq, ht⟩ := hnd
    by_cases hqj : q.1 = j
    · have hfind : ratingOf (q :: t) j = some q.2 := by
        unfold ratingOf
        rw [List.find?_cons_of_pos _ (by simp [hqj])]
        rfl
      have hzero : (t.map (fun r => if j = r.1 then F r else 0)).sum = 0 := by
        refine keyedSum_zero j F t (fun r hr hrj => hq ?_)
        rw [← hqj] at hrj
        rw [← hrj]
        exact List.mem_map.mpr ⟨r, hr, rfl⟩
      have hFq : F q = F (j, q.2) := by
        rw [show q = (j, q.2) by rw [← hqj]]
      simp only [List.map_cons, List.sum_cons, hfind, if_pos hqj.symm, hzero, add_zero]
      simpa using hFq
    · have hfind : ratingOf (q :: t) j = ratingOf t j := by
        unfold ratingOf
        rw [List.find?_cons_of_neg _ (by simp [hqj])]
      simp only [List.map_cons, List.sum_cons, hfind,
        if_neg (fun hh : j = q.1 => hqj hh.symm), zero_add]
      exact ih ht

/-- One y list's contribution to cell (i, j): with unique keys, the double
keyed sum picks out the pair of ratings of i and j, when both are present. -/
theorem listContrib {α : Type} [AddCommMonoid α] (f : Nat → Nat → Int → Int → α)
    (i j : Nat) (ys : YRatings) (hnd : (ys.map Prod.fst).Nodup) :
    (ys.map (fun p => (ys.map (fun q =>
      if i = p.1 ∧ j = q.1 then f p.1 q.1 p.2 q.2 else 0)).sum)).sum
    = ((ratingOf ys i).bind (fun a => (ratingOf ys j).map (fun b => (a, b)))).elim 0
        (fun p => f i j p.1 p.2) := by
  have h1 : ∀ p : Nat × Int,
      (ys.map (fun q => if i = p.1 ∧ j = q.1 then f p.1 q.1 p.2 q.2 else 0)).sum
      = if i = p.1 then
          (ys.map (fun q => if j = q.1 then f i q.1 p.2 q.2 else 0)).sum
        else 0 := by
    intro p
    by_cases hp : i = p.1
    · rw [if_pos hp]
      refine congrArg List.sum (List.map_congr_left (fun q _ => ?_))
      by_cases hq : j = q.1
      · rw [if_pos ⟨hp, hq⟩, if_pos hq, ← hp]
      · rw [if_neg (fun hh => hq hh.2), if_neg hq]
    · rw [if_neg hp]
      refine (List.sum_eq_zero (fun v hv => ?_))
      obtain ⟨q, _, hqv⟩ := List.mem_map.mp hv
      rw [← hqv, if_neg (fun hh => hp hh.1)]
  simp only [h1]
  rw [keyedSum i (fun p => (ys.map (fun q => if j = q.1 then f i q.1 p.2 q.2 else 0)).sum) ys hnd]
  have h2 : ∀ r1 : Int,
      (ys.map (fun q => if j = q.1 then f i q.1 r1 q.2 else 0)).sum
      = (ratingOf ys j).elim 0 (fun r2 => f i j r1 r2) :=
    fun r1 => keyedSum j (fun q => f i q.1 r1 q.2) ys hnd
  cases hri : ratingOf ys i <;> cases hrj : ratingOf ys j <;> simp [h2, hrj]

/-- Main accumulator characterization: under well-formed y lists, every
accumulator cell (i, j) is the sum of its per-pair quantity over exactly the
co-rating pairs of i and j. -/
theorem accLoop_coPairs {α : Type} [AddCommMonoid α] (f : Nat → Nat → Int → Int → α)
    (yr : YR) (i j : Nat) (hnd : ∀ y ∈ yr, (y.2.map Prod.fst).Nodup) :
    accLoop f yr i j = ((coPairs yr i j).map (fun p => f i j p.1 p.2)).sum := by
  rw [accLoop_apply]
  induction yr with
  | nil => simp [coPairs]
  | cons y t ih =>
    have hy := hnd y (by simp)
    have ht : ∀ z ∈ t, (z.2.map Prod.fst).Nodup := fun z hz => hnd z (by simp [hz])
    simp only [List.map_cons, List.sum_cons, coPairs, List.filterMap_cons]
    rw [listContrib f i j y.2 hy]
    cases ho : (ratingOf y.2 i).bind (fun a => (ratingOf y.2 j).map (fun b => (a, b))) with
    | none =>
      simp only [Option.elim, zero_add]
      exact ih ht
    | some p =>
      simp only [Option.elim, List.map_cons, List.sum_cons]
      rw [ih ht]
      rfl

/-- Pointwise reading of one fill step at row xi, column xj > xi. -/
theorem fillStep_apply {α : Type} (g : α → α) (wr : Nat → Nat → Bool) (cell : Nat → Nat → α)
    (xi xj : Nat) (hlt : xi < xj) (sim : Mat α) (a b : Nat) :
    fillStep g wr cell xi sim xj a b =
      if wr xi xj ∧ a = xi ∧ b = xj then cell xi xj
      else if wr xi xj ∧ a = xj ∧ b = xi then g (cell xi xj)
      else sim a b := by
  have hne : xi ≠ xj := Nat.ne_of_lt hlt
  unfold fillStep
  by_cases hw : wr xi xj
  · simp only [hw, if_true, mset, mget, true_and]
    split_ifs <;> simp_all
  · simp_all

/-- Pointwise reading of the inner fill loop over a column list whose entries
all exceed the row index. -/
theorem fillFold_apply {α : Type} (g : α → α) (wr : Nat → Nat → Bool)
    (cell : Nat → Nat → α) (xi : Nat) :
    ∀ (L : List Nat), (∀ x ∈ L, xi < x) → ∀ (sim : Mat α) (a b : Nat),
      (L.foldl (fillStep g wr cell xi) sim) a b =
        if a = xi ∧ b ∈ L ∧ wr xi b then cell xi b
        else if b = xi ∧ a ∈ L ∧ wr xi a then g (cell xi a)
        else sim a b := by
  intro L
  induction L with
  | nil => intro _ sim a b; simp
  | cons x t ih =>
    intro hgt sim a b
    have hx : xi < x := hgt x (by simp)
    have hxt : ∀ z ∈ t, xi < z := fun z hz => hgt z (by simp [hz])
    have hxit : xi ∉ t := fun h => lt_irrefl xi (hxt xi h)
    have hxix : xi ≠ x := Nat.ne_of_lt hx
    simp only [List.foldl_cons]
    rw [ih hxt (fillStep g wr cell xi sim x) a b,
      fillStep_apply g wr cell xi x hx sim a b]
    by_cases h1 : a = xi <;> by_cases h2 : b = xi <;>
      by_cases h3 : b ∈ t <;> by_cases h5 : a ∈ t <;>
      by_cases h4 : b = x <;> by_cases h6 : a = x <;>
      simp_all

/-- Pointwise reading of one outer fill iteration (diagonal write plus inner
loop) at row xi. -/
theorem fillRow_apply {α : Type} (n : Nat) (diag : α) (g : α → α)
    (wr : Nat → Nat → Bool) (cell : Nat → Nat → α) (sim : Mat α) (xi : Nat) (a b : Nat) :
    fillRow n diag g wr cell sim xi a b =
      if a = xi ∧ (xi < b ∧ b < n) ∧ wr xi b then cell xi b
      else if b = xi ∧ (xi < a ∧ a < n) ∧ wr xi a then g (cell xi a)
      else mset sim xi xi diag a b := by
  unfold fillRow
  have hmem : ∀ z : Nat, z ∈ List.range' (xi + 1) (n - (xi + 1)) ↔ (xi < z ∧ z < n) := by
    intro z
    rw [List.mem_range'_1]
    omega
  rw [fillFold_apply g wr cell xi (List.range' (xi + 1) (n - (xi + 1)))
    (fun x hx => ((hmem x).mp hx).1) (mset sim xi xi diag) a b]
  simp only [hmem]

/-- Pointwise reading of the fill loop after the first m rows are processed. -/
theorem fillPrefix_apply {α : Type} (z diag : α) (g : α → α) (wr : Nat → Nat → Bool)
    (cell : Nat → Nat → α) (n : Nat) :
    ∀ m : Nat, ∀ a b : Nat,
      ((List.range m).foldl (fillRow n diag g wr cell) (mzero z)) a b =
        if a = b ∧ a < m then diag
        else if a < m ∧ a < b ∧ b < n ∧ wr a b then cell a b
        else if b < m ∧ b < a ∧ a < n ∧ wr b a then g (cell b a)
        else z := by
  intro m
  induction m with
  | zero => intro a b; simp [mzero]
  | succ k ih =>
    intro a b
    rw [List.range_succ, List.foldl_append]
    simp only [List.foldl_cons, List.foldl_nil]
    rw [fillRow_apply n diag g wr cell _ k a b]
    simp only [mset, ih a b]
    rcases Nat.lt_trichotomy a k with hak | hak | hak
    · have h1 : ¬(a = k ∧ (k < b ∧ b < n) ∧ wr k b = true) := fun h => absurd h.1 (by omega)
      have h2 : ¬(b = k ∧ (k < a ∧ a < n) ∧ wr k a = true) := fun h => absurd h.2.1.1 (by omega)
      have h3 : ¬(a = k ∧ b = k) := fun h => absurd h.1 (by omega)
      rw [if_neg h1, if_neg h2, if_neg h3]
      have e1 : (a = b ∧ a < k) = (a = b ∧ a < k + 1) :=
        propext ⟨fun h => ⟨h.1, Nat.lt_succ_of_lt h.2⟩, fun h => ⟨h.1, hak⟩⟩
      have e2 : (a < k ∧ a < b ∧ b < n ∧ wr a b = true)
          = (a < k + 1 ∧ a < b ∧ b < n ∧ wr a b = true) :=
        propext ⟨fun h => ⟨Nat.lt_succ_of_lt h.1, h.2⟩, fun h => ⟨hak, h.2⟩⟩
      have e3 : (b < k ∧ b < a ∧ a < n ∧ wr b a = true)
          = (b < k + 1 ∧ b < a ∧ a < n ∧ wr b a = true) :=
        propext ⟨fun h => ⟨Nat.lt_succ_of_lt h.1, h.2⟩, fun h => ⟨Nat.lt_trans h.2.1 hak, h.2⟩⟩
      simp only [e1, e2, e3]
    · subst hak
      rcases Nat.lt_trichotomy b a with hba | hba | hba
      · have h1 : ¬(a = a ∧ (a < b ∧ b < n) ∧ wr a b = true) := fun h => absurd h.2.1.1 (by omega)
        have h2 : ¬(b = a ∧ (a < a ∧ a < n) ∧ wr a a = true) :=
          fun h => absurd h.2.1.1 (Nat.lt_irrefl a)
        have h3 : ¬(a = a ∧ b = a) := fun h => absurd h.2 (by omega)
        rw [if_neg h1, if_neg h2, if_neg h3]
        have h4 : ¬(a = b ∧ a < a) := fun h => absurd h.2 (Nat.lt_irrefl a)
        have h4' : ¬(a = b ∧ a < a + 1) := fun h => absurd h.1 (by omega)
        have h5 : ¬(a < a ∧ a < b ∧ b < n ∧ wr a b = true) :=
          fun h => absurd h.1 (Nat.lt_irrefl a)
        have h5' : ¬(a < a + 1 ∧ a < b ∧ b < n ∧ wr a b = true) :=
          fun h => absurd h.2.1 (by omega)
        rw [if_neg h4, if_neg h4', if_neg h5, if_neg h5']
        have e3 : (b < a ∧ b < a ∧ a < n ∧ wr b a = true)
            = (b < a + 1 ∧ b < a ∧ a < n ∧ wr b a = true) :=
          propext ⟨fun h => ⟨Nat.lt_succ_of_lt h.1, h.2⟩, fun h => ⟨h.2.1, h.2⟩⟩
        simp only [e3]
      · subst hba
        have h1 : ¬(b = b ∧ (b < b ∧ b < n) ∧ wr b b = true) :=
          fun h => absurd h.2.1.1 (Nat.lt_irrefl b)
        rw [if_neg h1, if_neg h1, if_pos ⟨rfl, rfl⟩, if_pos ⟨rfl, Nat.lt_succ_self b⟩]
      · have h2 : ¬(b = a ∧ (a < a ∧ a < n) ∧ wr a a = true) :=
          fun h => absurd h.2.1.1 (Nat.lt_irrefl a)
        have h3 : ¬(a = a ∧ b = a) := fun h => absurd h.2 (by omega)
        have hB1 : ¬(a = b ∧ a < a + 1) := fun h => absurd h.1 (by omega)
        have hB3 : ¬(b < a + 1 ∧ b < a ∧ a < n ∧ wr b a = true) :=
          fun h => absurd h.2.1 (by omega)
        have hP1 : ¬(a = b ∧ a < a) := fun h => absurd h.2 (Nat.lt_irrefl a)
        have hP2 : ¬(a < a ∧ a < b ∧ b < n ∧ wr a b = true) :=
          fun h => absurd h.1 (Nat.lt_irrefl a)
        have hP3 : ¬(b < a ∧ b < a ∧ a < n ∧ wr b a = true) := fun h => absurd h.1 (by omega)
        rw [if_neg h2, if_neg h3, if_neg hP1, if_neg hP2, if_neg hP3, if_neg hB1, if_neg hB3]
        refine if_congr ?_ rfl rfl
        constructor
        · rintro ⟨-, ⟨u1, u2⟩, u3⟩
          exact ⟨Nat.lt_succ_self a, u1, u2, u3⟩
        · rintro ⟨-, u1, u2, u3⟩
          exact ⟨rfl, ⟨u1, u2⟩, u3⟩
    · have h1 : ¬(a = k ∧ (k < b ∧ b < n) ∧ wr k b = true) := fun h => absurd h.1 (by omega)
      have h3 : ¬(a = k ∧ b = k) := fun h => absurd h.1 (by omega)
      have hB1 : ¬(a = b ∧ a < k + 1) := fun h => absurd h.2 (by omega)
      have hB2 : ¬(a < k + 1 ∧ a < b ∧ b < n ∧ wr a b = true) := fun h => absurd h.1 (by omega)
      have hP1 : ¬(a = b ∧ a < k) := fun h => absurd h.2 (by omega)
      have hP2 : ¬(a < k ∧ a < b ∧ b < n ∧ wr a b = true) := fun h => absurd h.1 (by omega)
      rw [if_neg h1, if_neg h3, if_neg hP1, if_neg hP2, if_neg hB1, if_neg hB2]
      by_cases hbk : b = k
      · subst hbk
        have hP3 : ¬(b < b ∧ b < a ∧ a < n ∧ wr b a = true) :=
          fun h => absurd h.1 (Nat.lt_irrefl b)
        rw [if_neg hP3]
        refine if_congr ?_ rfl rfl
        constructor
        · rintro ⟨-, ⟨u1, u2⟩, u3⟩
          exact ⟨Nat.lt_succ_self b, u1, u2, u3⟩
        · rintro ⟨-, u1, u2, u3⟩
          exact ⟨rfl, ⟨u1, u2⟩, u3⟩
      · have h2 : ¬(b = k ∧ (k < a ∧ a < n) ∧ wr k a = true) := fun h => absurd h.1 hbk
        rw [if_neg h2]
        have e3 : (b < k ∧ b < a ∧ a < n ∧ wr b a = true)
            = (b < k + 1 ∧ b < a ∧ a < n ∧ wr b a = true) :=
          propext ⟨fun h => ⟨Nat.lt_succ_of_lt h.1, h.2⟩, fun h => ⟨by omega, h.2⟩⟩
        simp only [e3]

/-- Pointwise reading of the full fill loop: diagonal sentinel inside the
square, written cell for the upper triangle, mirrored cell through g for the
lower triangle, initial value elsewhere. -/
theorem fillMat_apply {α : Type} (z diag : α) (g : α → α) (wr : Nat → Nat → Bool)
    (cell : Nat → Nat → α) (n : Nat) (a b : Nat) :
    fillMat n z diag g wr cell a b =
      if a = b ∧ a < n then diag
      else if a < b ∧ b < n ∧ wr a b then cell a b
      else if b < a ∧ a < n ∧ wr b a then g (cell b a)
      else z := by
  unfold fillMat
  rw [fillPrefix_apply z diag g wr cell n n a b]
  have e2 : (a < n ∧ a < b ∧ b < n ∧ wr a b = true) = (a < b ∧ b < n ∧ wr a b = true) :=
    propext ⟨fun h => h.2, fun h => ⟨Nat.lt_trans h.1 h.2.1, h⟩⟩
  have e3 : (b < n ∧ b < a ∧ a < n ∧ wr b a = true) = (b < a ∧ a < n ∧ wr b a = true) :=
    propext ⟨fun h => h.2, fun h => ⟨Nat.lt_trans h.1 h.2.1, h⟩⟩
  simp only [e2, e3]

/-- Summing the constant 1 over a list counts its elements. -/
theorem sum_map_one (l : List (Int × Int)) :
    (l.map (fun _ => (1 : ℤ))).sum = (l.length : ℤ) := by
  induction l with
  | nil => simp
  | cons p t ih =>
    simp only [List.map_cons, List.sum_cons, List.length_cons, ih]
    push_cast
    ring

/-- The freq accumulator counts co-ratings. -/
theorem freqM_eq (yr : YR) (i j : Nat) (hnd : ∀ y ∈ yr, (y.2.map Prod.fst).Nodup) :
    freqM yr i j = (coCount yr i j : ℤ) := by
  unfold freqM coCount
  rw [accLoop_coPairs _ yr i j hnd]
  exact sum_map_one _

/-- The prods accumulator sums rating products over co-ratings. -/
theorem prodsM_eq (yr : YR) (i j : Nat) (hnd : ∀ y ∈ yr, (y.2.map Prod.fst).Nodup) :
    prodsM yr i j = coSum (fun a b => a * b) yr i j :=
  accLoop_coPairs _ yr i j hnd

/-- The sqi accumulator sums left squared ratings over co-ratings. -/
theorem sqiM_eq (yr : YR) (i j : Nat) (hnd : ∀ y ∈ yr, (y.2.map Prod.fst).Nodup) :
    sqiM yr i j = coSum (fun a _ => a ^ 2) yr i j :=
  accLoop_coPairs _ yr i j hnd

/-- The sqj accumulator sums right squared ratings over co-ratings. -/
theorem sqjM_eq (yr : YR) (i j : Nat) (hnd : ∀ y ∈ yr, (y.2.map Prod.fst).Nodup) :
    sqjM yr i j = coSum (fun _ b => b ^ 2) yr i j :=
  accLoop_coPairs _ yr i j hnd

/-- The si accumulator sums left ratings over co-ratings. -/
theorem siM_eq (yr : YR) (i j : Nat) (hnd : ∀ y ∈ yr, (y.2.map Prod.fst).Nodup) :
    siM yr i j = coSum (fun a _ => a) yr i j :=
  accLoop_coPairs _ yr i j hnd

/-- The sj accumulator sums right ratings over co-ratings. -/
theorem sjM_eq (yr : YR) (i j : Nat) (hnd : ∀ y ∈ yr, (y.2.map Prod.fst).Nodup) :
    sjM yr i j = coSum (fun _ b => b) yr i j :=
  accLoop_coPairs _ yr i j hnd

/-- The msd sq_diff accumulator sums squared rating differences over
co-ratings. -/
theorem sqDiffM_eq (yr : YR) (i j : Nat) (hnd : ∀ y ∈ yr, (y.2.map Prod.fst).Nodup) :
    sqDiffM yr i j = coSum (fun a b => ((a - b : Int) : ℚ) ^ 2) yr i j :=
  accLoop_coPairs _ yr i j hnd

/-- The mean-diff diff accumulator sums rating differences over co-ratings. -/
theorem diffM_eq (yr : YR) (i j : Nat) (hnd : ∀ y ∈ yr, (y.2.map Prod.fst).Nodup) :
    diffM yr i j = coSum (fun a b => ((a - b : Int) : ℚ)) yr i j :=
  accLoop_coPairs _ yr i j hnd

/-- The msdClone sq_diff accumulator sums mean-adjusted squared differences
over co-ratings. -/
theorem cloneSqDiffM_eq (n : Nat) (yr : YR) (i j : Nat)
    (hnd : ∀ y ∈ yr, (y.2.map Prod.fst).Nodup) :
    cloneSqDiffM n yr i j
      = coSum (fun a b => ((a : ℚ) - (b : ℚ) - compute_mean_diff n yr i j) ^ 2) yr i j :=
  accLoop_coPairs _ yr i j hnd

/-- A successful rating lookup comes from an entry of the list. -/
theorem ratingOf_mem {ys : YRatings} {i : Nat} {r : Int} (h : ratingOf ys i = some r) :
    (i, r) ∈ ys := by
  unfold ratingOf at h
  cases hf : ys.find? (fun p => p.1 == i) with
  | none => rw [hf] at h; exact absurd h (by simp)
  | some q =>
    rw [hf] at h
    have hq : q ∈ ys := List.mem_of_find?_eq_some hf
    have hkey : q.1 = i := by
      have := List.find?_some hf
      simpa using this
    have hval : q.2 = r := by simpa using h
    rw [← hkey, ← hval]
    exact hq

/-- Entities never listed do not get a rating. -/
theorem ratingOf_eq_none {ys : YRatings} {i : Nat} (h : ∀ p ∈ ys, p.1 ≠ i) :
    ratingOf ys i = none := by
  unfold ratingOf
  rw [List.find?_eq_none.mpr (fun p hp => by simpa using h p hp)]
  rfl

/-- Swapping the two entities swaps every co-rating pair. -/
theorem coPairs_swap (yr : YR) (i j : Nat) :
    coPairs yr j i = (coPairs yr i j).map (fun p => (p.2, p.1)) := by
  unfold coPairs
  induction yr with
  | nil => simp
  | cons y t ih =>
    simp only [List.filterMap_cons]
    cases h1 : ratingOf y.2 i <;> cases h2 : ratingOf y.2 j <;>
      simp [h1, h2, ih]

/-- Every co-rating pair originates in a y list that mentions both entities. -/
theorem coPairs_mem {yr : YR} {i j : Nat} {p : Int × Int} (hp : p ∈ coPairs yr i j) :
    ∃ y ∈ yr, (i, p.1) ∈ y.2 ∧ (j, p.2) ∈ y.2 := by
  unfold coPairs at hp
  obtain ⟨y, hy, hv⟩ := List.mem_filterMap.mp hp
  refine ⟨y, hy, ?_⟩
  cases h1 : ratingOf y.2 i <;> cases h2 : ratingOf y.2 j <;> rw [h1, h2] at hv <;>
    simp at hv
  rw [← hv]
  exact ⟨ratingOf_mem h1, ratingOf_mem h2⟩

/-- Co-rating an entity with itself pairs each rating with itself. -/
theorem coPairs_self {yr : YR} {i : Nat} {p : Int × Int} (hp : p ∈ coPairs yr i i) :
    p.1 = p.2 := by
  unfold coPairs at hp
  obtain ⟨y, _, hv⟩ := List.mem_filterMap.mp hp
  cases h1 : ratingOf y.2 i <;> rw [h1] at hv <;> simp at hv
  rw [← hv]

/-- Entities that never share a y have no co-rating pairs. -/
theorem coPairs_nil_of_no_share {yr : YR} {i j : Nat}
    (h : ∀ y ∈ yr, ¬(i ∈ y.2.map Prod.fst ∧ j ∈ y.2.map Prod.fst)) :
    coPairs yr i j = [] := by
  unfold coPairs
  rw [List.filterMap_eq_nil_iff]
  intro y hy
  cases h1 : ratingOf y.2 i with
  | none => rfl
  | some a =>
    cases h2 : ratingOf y.2 j with
    | none => rfl
    | some b =>
      exact absurd ⟨List.mem_map.mpr ⟨(i, a), ratingOf_mem h1, rfl⟩,
        List.mem_map.mpr ⟨(j, b), ratingOf_mem h2, rfl⟩⟩ (h y hy)

/-- With all ids below n, an entity at or beyond n has no co-rating pairs. -/
theorem coPairs_nil_left_of_ge {n : Nat} {yr : YR} {i j : Nat} (hwf : wf n yr)
    (hi : n ≤ i) : coPairs yr i j = [] := by
  unfold coPairs
  rw [List.filterMap_eq_nil_iff]
  intro y hy
  rw [ratingOf_eq_none (fun p hp => by
    have := (hwf y hy).2 p hp
    omega)]
  rfl

/-- With all ids below n, an entity at or beyond n has no co-rating pairs
(right position). -/
theorem coPairs_nil_right_of_ge {n : Nat} {yr : YR} {i j : Nat} (hwf : wf n yr)
    (hj : n ≤ j) : coPairs yr i j = [] := by
  unfold coPairs
  rw [List.filterMap_eq_nil_iff]
  intro y hy
  cases h1 : ratingOf y.2 i with
  | none => rfl
  | some a =>
    rw [ratingOf_eq_none (fun p hp => by
      have := (hwf y hy).2 p hp
      omega)]
    rfl

/-- C2: for every n_x and well-formed yr, msd accumulates per pair
sq_diff[i,j] as the sum over co-rated ys of (r_i - r_j)^2 and freq[i,j] as the
co-rating count, and for every i < j returns sim[i,j] = freq[i,j] when
sq_diff[i,j] == 0 and freq[i,j] / sq_diff[i,j] otherwise; every diagonal
entry is 100 regardless of the data. -/
theorem msd_spec (n : Nat) (yr : YR) :
    (wf n yr → ∀ i j, i < j → j < n →
      sqDiffM yr i j = coSum (fun a b => ((a - b : Int) : ℚ) ^ 2) yr i j ∧
      freqM yr i j = (coCount yr i j : ℤ) ∧
      msd n yr i j =
        (if coSum (fun a b => ((a - b : Int) : ℚ) ^ 2) yr i j = 0
         then (coCount yr i j : ℚ)
         else (coCount yr i j : ℚ) / coSum (fun a b => ((a - b : Int) : ℚ) ^ 2) yr i j)) ∧
    (∀ i, i < n → msd n yr i i = 100) := by
  constructor
  · intro hwf i j hij hjn
    have hnd : ∀ y ∈ yr, (y.2.map Prod.fst).Nodup := fun y hy => (hwf y hy).1
    refine ⟨sqDiffM_eq yr i j hnd, freqM_eq yr i j hnd, ?_⟩
    unfold msd
    rw [fillMat_apply, if_neg (fun hh : i = j ∧ i < n => absurd hh.1 (by omega)),
      if_pos ⟨hij, hjn, rfl⟩, sqDiffM_eq yr i j hnd, freqM_eq yr i j hnd]
    push_cast
    rfl
  · intro i hin
    unfold msd
    rw [fillMat_apply, if_pos ⟨rfl, hin⟩]

/-- C2 witness: the spec's worked example, pair (0, 1) and a diagonal entry. -/
theorem msd_spec_witness :
    wf 3 yrEx ∧
    (sqDiffM yrEx 0 1 = coSum (fun a b => ((a - b : Int) : ℚ) ^ 2) yrEx 0 1 ∧
     freqM yrEx 0 1 = (coCount yrEx 0 1 : ℤ) ∧
     msd 3 yrEx 0 1 =
       (if coSum (fun a b => ((a - b : Int) : ℚ) ^ 2) yrEx 0 1 = 0
        then (coCount yrEx 0 1 : ℚ)
        else (coCount yrEx 0 1 : ℚ) / coSum (fun a b => ((a - b : Int) : ℚ) ^ 2) yrEx 0 1)) ∧
    msd 3 yrEx 2 2 = 100 :=
  ⟨by decide, (msd_spec 3 yrEx).1 (by decide) 0 1 (by decide) (by decide),
    (msd_spec 3 yrEx).2 2 (by decide)⟩

/-- C5: for every n_x and well-formed yr, cosine returns, for every pair
i < j, prods[i,j] / sqrt(sqi[i,j] * sqj[i,j]) when freq[i,j] > 0 and 0 when
freq[i,j] == 0, where prods, sqi, sqj sum r_i*r_j, r_i^2, r_j^2 over co-rated
ys only; every diagonal entry is the fixed value 1. -/
theorem cosine_spec (n : Nat) (yr : YR) :
    (wf n yr → ∀ i j, i < j → j < n →
      prodsM yr i j = coSum (fun a b => a * b) yr i j ∧
      sqiM yr i j = coSum (fun a _ => a ^ 2) yr i j ∧
      sqjM yr i j = coSum (fun _ b => b ^ 2) yr i j ∧
      freqM yr i j = (coCount yr i j : ℤ) ∧
      cosine n yr i j =
        (if 0 < coCount yr i j
         then ((coSum (fun a b => a * b) yr i j : ℤ) : ℝ) /
           Real.sqrt (((coSum (fun a _ => a ^ 2) yr i j *
             coSum (fun _ b => b ^ 2) yr i j : ℤ) : ℝ))
         else 0)) ∧
    (∀ i, i < n → cosine n yr i i = 1) := by
  constructor
  · intro hwf i j hij hjn
    have hnd : ∀ y ∈ yr, (y.2.map Prod.fst).Nodup := fun y hy => (hwf y hy).1
    refine ⟨prodsM_eq yr i j hnd, sqiM_eq yr i j hnd, sqjM_eq yr i j hnd,
      freqM_eq yr i j hnd, ?_⟩
    unfold cosine
    rw [fillMat_apply, if_neg (fun hh : i = j ∧ i < n => absurd hh.1 (by omega)),
      if_pos ⟨hij, hjn, rfl⟩, prodsM_eq yr i j hnd, sqiM_eq yr i j hnd,
      sqjM_eq yr i j hnd, freqM_eq yr i j hnd]
    by_cases hc : 0 < coCount yr i j
    · rw [if_pos hc, if_neg (fun hh => absurd (by exact_mod_cast hh : coCount yr i j = 0)
        (by omega))]
    · rw [if_neg hc, if_pos (by exact_mod_cast (by omega : coCount yr i j = 0))]
  · intro i hin
    unfold cosine
    rw [fillMat_apply, if_pos ⟨rfl, hin⟩]

/-- C5 witness: the spec's worked example, pair (0, 1) and a diagonal entry. -/
theorem cosine_spec_witness :
    wf 3 yrEx ∧
    (prodsM yrEx 0 1 = coSum (fun a b => a * b) yrEx 0 1 ∧
     sqiM yrEx 0 1 = coSum (fun a _ => a ^ 2) yrEx 0 1 ∧
     sqjM yrEx 0 1 = coSum (fun _ b => b ^ 2) yrEx 0 1 ∧
     freqM yrEx 0 1 = (coCount yrEx 0 1 : ℤ) ∧
     cosine 3 yrEx 0 1 =
       (if 0 < coCount yrEx 0 1
        then ((coSum (fun a b => a * b) yrEx 0 1 : ℤ) : ℝ) /
          Real.sqrt (((coSum (fun a _ => a ^ 2) yrEx 0 1 *
            coSum (fun _ b => b ^ 2) yrEx 0 1 : ℤ) : ℝ))
        else 0)) ∧
    cosine 3 yrEx 0 0 = 1 :=
  ⟨by decide, (cosine_spec 3 yrEx).1 (by decide) 0 1 (by decide) (by decide),
    (cosine_spec 3 yrEx).2 0 (by decide)⟩

/-- C1: for every n_x and well-formed yr, msdClone first computes the
mean-difference matrix, accumulates sq_diff[i,j] as the sum over co-rated ys
of (r_i - r_j - mean_diff[i,j])^2, and for every i < j returns
sim[i,j] = freq[i,j] if sq_diff[i,j] == 0 and freq[i,j] / sq_diff[i,j]
otherwise, with every diagonal entry 100. -/
theorem msdClone_spec (n : Nat) (yr : YR) :
    (wf n yr → ∀ i j, i < j → j < n →
      cloneSqDiffM n yr i j =
        coSum (fun a b => ((a : ℚ) - (b : ℚ) - compute_mean_diff n yr i j) ^ 2) yr i j ∧
      msdClone n yr i j =
        (if coSum (fun a b => ((a : ℚ) - (b : ℚ) - compute_mean_diff n yr i j) ^ 2) yr i j = 0
         then (coCount yr i j : ℚ)
         else (coCount yr i j : ℚ) /
           coSum (fun a b => ((a : ℚ) - (b : ℚ) - compute_mean_diff n yr i j) ^ 2) yr i j)) ∧
    (∀ i, i < n → msdClone n yr i i = 100) := by
  constructor
  · intro hwf i j hij hjn
    have hnd : ∀ y ∈ yr, (y.2.map Prod.fst).Nodup := fun y hy => (hwf y hy).1
    refine ⟨cloneSqDiffM_eq n yr i j hnd, ?_⟩
    unfold msdClone
    rw [fillMat_apply, if_neg (fun hh : i = j ∧ i < n => absurd hh.1 (by omega)),
      if_pos ⟨hij, hjn, rfl⟩, cloneSqDiffM_eq n yr i j hnd, freqM_eq yr i j hnd]
    push_cast
    rfl
  · intro i hin
    unfold msdClone
    rw [fillMat_apply, if_pos ⟨rfl, hin⟩]

/-- C1 witness: the spec's worked example, pair (0, 2) and a diagonal entry. -/
theorem msdClone_spec_witness :
    wf 3 yrEx ∧
    (cloneSqDiffM 3 yrEx 0 2 =
       coSum (fun a b => ((a : ℚ) - (b : ℚ) - compute_mean_diff 3 yrEx 0 2) ^ 2) yrEx 0 2 ∧
     msdClone 3 yrEx 0 2 =
       (if coSum (fun a b => ((a : ℚ) - (b : ℚ) - compute_mean_diff 3 yrEx 0 2) ^ 2) yrEx 0 2 = 0
        then (coCount yrEx 0 2 : ℚ)
        else (coCount yrEx 0 2 : ℚ) /
          coSum (fun a b => ((a : ℚ) - (b : ℚ) - compute_mean_diff 3 yrEx 0 2) ^ 2) yrEx 0 2)) ∧
    msdClone 3 yrEx 1 1 = 100 :=
  ⟨by decide, (msdClone_spec 3 yrEx).1 (by decide) 0 2 (by decide) (by decide),
    (msdClone_spec 3 yrEx).2 1 (by decide)⟩

/-- C4: for every n_x and well-formed yr, pearson returns, for every pair
i < j with n = freq[i,j], 0 when
denum = sqrt((n*sqi - si^2) * (n*sqj - sj^2)) equals 0 and
(n*prods - si*sj) / denum otherwise, with all accumulators summing only over
co-rated ys; every diagonal entry is 1. -/
theorem pearson_spec (n : Nat) (yr : YR) :
    (wf n yr → ∀ i j, i < j → j < n →
      freqM yr i j = (coCount yr i j : ℤ) ∧
      prodsM yr i j = coSum (fun a b => a * b) yr i j ∧
      sqiM yr i j = coSum (fun a _ => a ^ 2) yr i j ∧
      sqjM yr i j = coSum (fun _ b => b ^ 2) yr i j ∧
      siM yr i j = coSum (fun a _ => a) yr i j ∧
      sjM yr i j = coSum (fun _ b => b) yr i j ∧
      pearson n yr i j =
        (if Real.sqrt (((((coCount yr i j : ℤ) * coSum (fun a _ => a ^ 2) yr i j -
                coSum (fun a _ => a) yr i j ^ 2) *
              ((coCount yr i j : ℤ) * coSum (fun _ b => b ^ 2) yr i j -
                coSum (fun _ b => b) yr i j ^ 2) : ℤ) : ℝ)) = 0
         then 0
         else (((coCount yr i j : ℤ) * coSum (fun a b => a * b) yr i j -
             coSum (fun a _ => a) yr i j * coSum (fun _ b => b) yr i j : ℤ) : ℝ) /
           Real.sqrt (((((coCount yr i j : ℤ) * coSum (fun a _ => a ^ 2) yr i j -
                coSum (fun a _ => a) yr i j ^ 2) *
              ((coCount yr i j : ℤ) * coSum (fun _ b => b ^ 2) yr i j -
                coSum (fun _ b => b) yr i j ^ 2) : ℤ) : ℝ)))) ∧
    (∀ i, i < n → pearson n yr i i = 1) := by
  constructor
  · intro hwf i j hij hjn
    have hnd : ∀ y ∈ yr, (y.2.map Prod.fst).Nodup := fun y hy => (hwf y hy).1
    refine ⟨freqM_eq yr i j hnd, prodsM_eq yr i j hnd, sqiM_eq yr i j hnd,
      sqjM_eq yr i j hnd, siM_eq yr i j hnd, sjM_eq yr i j hnd, ?_⟩
    unfold pearson
    rw [fillMat_apply, if_neg (fun hh : i = j ∧ i < n => absurd hh.1 (by omega)),
      if_pos ⟨hij, hjn, rfl⟩, freqM_eq yr i j hnd, prodsM_eq yr i j hnd,
      sqiM_eq yr i j hnd, sqjM_eq yr i j hnd, siM_eq yr i j hnd, sjM_eq yr i j hnd]
  · intro i hin
    unfold pearson
    rw [fillMat_apply, if_pos ⟨rfl, hin⟩]

/-- C4 witness: the spec's worked example, pair (1, 2) and a diagonal entry. -/
theorem pearson_spec_witness :
    wf 3 yrEx ∧
    (freqM yrEx 1 2 = (coCount yrEx 1 2 : ℤ) ∧
     prodsM yrEx 1 2 = coSum (fun a b => a * b) yrEx 1 2 ∧
     sqiM yrEx 1 2 = coSum (fun a _ => a ^ 2) yrEx 1 2 ∧
     sqjM yrEx 1 2 = coSum (fun _ b => b ^ 2) yrEx 1 2 ∧
     siM yrEx 1 2 = coSum (fun a _ => a) yrEx 1 2 ∧
     sjM yrEx 1 2 = coSum (fun _ b => b) yrEx 1 2 ∧
     pearson 3 yrEx 1 2 =
       (if Real.sqrt (((((coCount yrEx 1 2 : ℤ) * coSum (fun a _ => a ^ 2) yrEx 1 2 -
               coSum (fun a _ => a) yrEx 1 2 ^ 2) *
             ((coCount yrEx 1 2 : ℤ) * coSum (fun _ b => b ^ 2) yrEx 1 2 -
               coSum (fun _ b => b) yrEx 1 2 ^ 2) : ℤ) : ℝ)) = 0
        then 0
        else (((coCount yrEx 1 2 : ℤ) * coSum (fun a b => a * b) yrEx 1 2 -
            coSum (fun a _ => a) yrEx 1 2 * coSum (fun _ b => b) yrEx 1 2 : ℤ) : ℝ) /
          Real.sqrt (((((coCount yrEx 1 2 : ℤ) * coSum (fun a _ => a ^ 2) yrEx 1 2 -
               coSum (fun a _ => a) yrEx 1 2 ^ 2) *
             ((coCount yrEx 1 2 : ℤ) * coSum (fun _ b => b ^ 2) yrEx 1 2 -
               coSum (fun _ b => b) yrEx 1 2 ^ 2) : ℤ) : ℝ)))) ∧
    pearson 3 yrEx 2 2 = 1 :=
  ⟨by decide, (pearson_spec 3 yrEx).1 (by decide) 1 2 (by decide) (by decide),
    (pearson_spec 3 yrEx).2 2 (by decide)⟩

/-- Swapping the entities negates the summed rating differences. -/
theorem coSum_sub_swap (yr : YR) (i j : Nat) :
    coSum (fun a b => ((a - b : Int) : ℚ)) yr i j
      = -coSum (fun a b => ((a - b : Int) : ℚ)) yr j i := by
  unfold coSum
  rw [coPairs_swap yr i j, List.map_map]
  induction coPairs yr i j with
  | nil => simp
  | cons p t ih =>
    simp only [List.map_cons, List.sum_cons, Function.comp, ih]
    push_cast
    ring

/-- Swapping the entities preserves the co-rating count. -/
theorem coCount_swap (yr : YR) (i j : Nat) : coCount yr j i = coCount yr i j := by
  unfold coCount
  rw [coPairs_swap yr i j, List.length_map]

/-- Co-rating an entity with itself sums zero differences. -/
theorem coSum_sub_self (yr : YR) (i : Nat) :
    coSum (fun a b => ((a - b : Int) : ℚ)) yr i i = 0 := by
  unfold coSum
  refine List.sum_eq_zero (fun v hv => ?_)
  obtain ⟨p, hp, hpv⟩ := List.mem_map.mp hv
  rw [← hpv, coPairs_self hp]
  push_cast
  ring

/-- The diagonal of compute_mean_diff is zero. -/
theorem mean_diff_diag (n : Nat) (yr : YR) (i : Nat) :
    compute_mean_diff n yr i i = 0 := by
  unfold compute_mean_diff
  rw [fillMat_apply]
  by_cases hin : i < n
  · rw [if_pos ⟨rfl, hin⟩]
  · rw [if_neg (fun hh => absurd hh.2 hin),
      if_neg (fun hh : i < i ∧ i < n ∧ (freqM yr i i != 0) = true => absurd hh.1 (by omega)),
      if_neg (fun hh : i < i ∧ i < n ∧ (freqM yr i i != 0) = true => absurd hh.1 (by omega))]

/-- Antisymmetry of compute_mean_diff in the strict upper triangle. -/
theorem mean_diff_antisymm_lt (n : Nat) (yr : YR) (i j : Nat) (hij : i < j) :
    compute_mean_diff n yr i j = -compute_mean_diff n yr j i := by
  unfold compute_mean_diff
  rw [fillMat_apply, fillMat_apply,
    if_neg (fun hh : i = j ∧ i < n => absurd hh.1 (by omega)),
    if_neg (fun hh : j = i ∧ j < n => absurd hh.1 (by omega)),
    if_neg (fun hh : j < i ∧ i < n ∧ (freqM yr j i != 0) = true => absurd hh.1 (by omega)),
    if_neg (fun hh : j < i ∧ i < n ∧ (freqM yr j i != 0) = true => absurd hh.1 (by omega))]
  by_cases hc : i < j ∧ j < n ∧ (freqM yr i j != 0) = true
  · rw [if_pos hc, if_pos hc, neg_neg]
  · rw [if_neg hc, if_neg hc, neg_zero]

/-- The upper-triangle cell value of compute_mean_diff. -/
theorem mean_diff_cell (n : Nat) (yr : YR) (i j : Nat)
    (hnd : ∀ y ∈ yr, (y.2.map Prod.fst).Nodup) (hij : i < j) (hjn : j < n) :
    compute_mean_diff n yr i j =
      (if 0 < coCount yr i j
       then coSum (fun a b => ((a - b : Int) : ℚ)) yr i j / (coCount yr i j : ℚ)
       else 0) := by
  unfold compute_mean_diff
  rw [fillMat_apply, if_neg (fun hh : i = j ∧ i < n => absurd hh.1 (by omega))]
  by_cases hc : 0 < coCount yr i j
  · have h0 : freqM yr i j ≠ 0 := by
      rw [freqM_eq yr i j hnd]
      exact_mod_cast Nat.pos_iff_ne_zero.mp hc
    rw [if_pos ⟨hij, hjn, bne_iff_ne.mpr h0⟩, diffM_eq yr i j hnd, freqM_eq yr i j hnd,
      if_pos hc]
    push_cast
    rfl
  · have h0 : freqM yr i j = 0 := by
      rw [freqM_eq yr i j hnd]
      exact_mod_cast (by omega : coCount yr i j = 0)
    rw [if_neg (fun hh : i < j ∧ j < n ∧ (freqM yr i j != 0) = true =>
        absurd (bne_iff_ne.mp hh.2.2) (fun hne => hne h0)),
      if_neg (fun hh : j < i ∧ i < n ∧ (freqM yr j i != 0) = true => absurd hh.1 (by omega)),
      if_neg hc]

/-- C3: for every n_x and well-formed yr, compute_mean_diff returns the sum of
rating differences divided by the co-rating count when that count is positive
and 0 otherwise; the matrix is antisymmetric and its diagonal is 0. -/
theorem compute_mean_diff_spec (n : Nat) (yr : YR) :
    (wf n yr → ∀ i j,
      compute_mean_diff n yr i j =
        (if 0 < coCount yr i j
         then coSum (fun a b => ((a - b : Int) : ℚ)) yr i j / (coCount yr i j : ℚ)
         else 0)) ∧
    (∀ i j, compute_mean_diff n yr i j = -compute_mean_diff n yr j i) ∧
    (∀ i, compute_mean_diff n yr i i = 0) := by
  refine ⟨?_, ?_, mean_diff_diag n yr⟩
  · intro hwf i j
    have hnd : ∀ y ∈ yr, (y.2.map Prod.fst).Nodup := fun y hy => (hwf y hy).1
    rcases Nat.lt_trichotomy i j with h | h | h
    · by_cases hjn : j < n
      · exact mean_diff_cell n yr i j hnd h hjn
      · have hnil : coPairs yr i j = [] := coPairs_nil_right_of_ge hwf (by omega)
        have hcnt : coCount yr i j = 0 := by rw [coCount, hnil]; rfl
        unfold compute_mean_diff
        rw [fillMat_apply,
          if_neg (fun hh : i = j ∧ i < n => absurd hh.1 (by omega)),
          if_neg (fun hh : i < j ∧ j < n ∧ (freqM yr i j != 0) = true =>
            absurd hh.2.1 hjn),
          if_neg (fun hh : j < i ∧ i < n ∧ (freqM yr j i != 0) = true =>
            absurd hh.1 (by omega)),
          if_neg (show ¬0 < coCount yr i j by rw [hcnt]; omega)]
    · rw [← h, mean_diff_diag n yr i]
      rw [coSum_sub_self yr i]
      by_cases hc : 0 < coCount yr i i
      · rw [if_pos hc, zero_div]
      · rw [if_neg hc]
    · by_cases hin : i < n
      · have hanti : compute_mean_diff n yr i j = -compute_mean_diff n yr j i := by
          rw [mean_diff_antisymm_lt n yr j i h, neg_neg]
        rw [hanti, mean_diff_cell n yr j i hnd h hin, coCount_swap yr j i,
          coSum_sub_swap yr i j]
        by_cases hc : 0 < coCount yr j i
        · rw [if_pos hc, if_pos hc, neg_div]
        · rw [if_neg hc, if_neg hc, neg_zero]
      · have hnil : coPairs yr i j = [] := coPairs_nil_left_of_ge hwf (by omega)
        have hcnt : coCount yr i j = 0 := by rw [coCount, hnil]; rfl
        unfold compute_mean_diff
        rw [fillMat_apply,
          if_neg (fun hh : i = j ∧ i < n => absurd hh.1 (by omega)),
          if_neg (fun hh : i < j ∧ j < n ∧ (freqM yr i j != 0) = true =>
            absurd hh.1 (by omega)),
          if_neg (fun hh : j < i ∧ i < n ∧ (freqM yr j i != 0) = true =>
            absurd hh.2.1 hin),
          if_neg (show ¬0 < coCount yr i j by rw [hcnt]; omega)]
  · intro i j
    rcases Nat.lt_trichotomy i j with h | h | h
    · exact mean_diff_antisymm_lt n yr i j h
    · rw [← h, mean_diff_diag n yr i, neg_zero]
    · rw [mean_diff_antisymm_lt n yr j i h, neg_neg]

/-- C3 witness: the spec's worked example, mixed-order pair and a diagonal
entry. -/
theorem compute_mean_diff_spec_witness :
    wf 3 yrEx ∧
    compute_mean_diff 3 yrEx 2 0 =
      (if 0 < coCount yrEx 2 0
       then coSum (fun a b => ((a - b : Int) : ℚ)) yrEx 2 0 / (coCount yrEx 2 0 : ℚ)
       else 0) ∧
    compute_mean_diff 3 yrEx 0 2 = -compute_mean_diff 3 yrEx 2 0 ∧
    compute_mean_diff 3 yrEx 1 1 = 0 :=
  ⟨by decide, (compute_mean_diff_spec 3 yrEx).1 (by decide) 2 0,
    (compute_mean_diff_spec 3 yrEx).2.1 0 2, (compute_mean_diff_spec 3 yrEx).2.2 1⟩

/-- A fill loop whose mirror step copies the cell unchanged produces a
symmetric matrix. -/
theorem fillMat_id_symm {α : Type} (z diag : α) (wr : Nat → Nat → Bool)
    (cell : Nat → Nat → α) (n a b : Nat) :
    fillMat n z diag id wr cell a b = fillMat n z diag id wr cell b a := by
  rw [fillMat_apply, fillMat_apply]
  rcases Nat.lt_trichotomy a b with h | h | h
  · rw [if_neg (fun hh : a = b ∧ a < n => absurd hh.1 (by omega)),
      if_neg (fun hh : b = a ∧ b < n => absurd hh.1 (by omega)),
      if_neg (fun hh : b < a ∧ a < n ∧ wr b a = true => absurd hh.1 (by omega)),
      if_neg (fun hh : b < a ∧ a < n ∧ wr b a = true => absurd hh.1 (by omega))]
    rfl
  · rw [h]
  · rw [if_neg (fun hh : a = b ∧ a < n => absurd hh.1 (by omega)),
      if_neg (fun hh : b = a ∧ b < n => absurd hh.1 (by omega)),
      if_neg (fun hh : a < b ∧ b < n ∧ wr a b = true => absurd hh.1 (by omega)),
      if_neg (fun hh : a < b ∧ b < n ∧ wr a b = true => absurd hh.1 (by omega))]
    rfl

/-- C7: for every n_x, well-formed yr and valid indices i, j, each of the
four similarity functions returns a matrix with sim[i,j] == sim[j,i]. -/
theorem sims_symmetric (n : Nat) (yr : YR) (_hwf : wf n yr) (i j : Nat)
    (_hi : i < n) (_hj : j < n) :
    cosine n yr i j = cosine n yr j i ∧ msd n yr i j = msd n yr j i ∧
    msdClone n yr i j = msdClone n yr j i ∧ pearson n yr i j = pearson n yr j i :=
  ⟨fillMat_id_symm _ _ _ _ n i j, fillMat_id_symm _ _ _ _ n i j,
    fillMat_id_symm _ _ _ _ n i j, fillMat_id_symm _ _ _ _ n i j⟩

/-- C7 witness: the spec's worked example at the pair (0, 2). -/
theorem sims_symmetric_witness :
    wf 3 yrEx ∧
    (cosine 3 yrEx 0 2 = cosine 3 yrEx 2 0 ∧ msd 3 yrEx 0 2 = msd 3 yrEx 2 0 ∧
     msdClone 3 yrEx 0 2 = msdClone 3 yrEx 2 0 ∧
     pearson 3 yrEx 0 2 = pearson 3 yrEx 2 0) :=
  ⟨by decide, sims_symmetric 3 yrEx (by decide) 0 2 (by decide) (by decide)⟩

/-- C6: for every n_x, well-formed yr and valid i != j that never co-occur
under any y, all four similarity functions return 0 at (i, j). -/
theorem no_shared_ratings_fallback (n : Nat) (yr : YR) (hwf : wf n yr) (i j : Nat)
    (hi : i < n) (hj : j < n) (hij : i ≠ j)
    (h : ∀ y ∈ yr, ¬(i ∈ y.2.map Prod.fst ∧ j ∈ y.2.map Prod.fst)) :
    cosine n yr i j = 0 ∧ msd n yr i j = 0 ∧ msdClone n yr i j = 0 ∧
    pearson n yr i j = 0 := by
  have hnd : ∀ y ∈ yr, (y.2.map Prod.fst).Nodup := fun y hy => (hwf y hy).1
  have hnil : coPairs yr i j = [] := coPairs_nil_of_no_share h
  have hnil' : coPairs yr j i = [] :=
    coPairs_nil_of_no_share (fun y hy hh => h y hy ⟨hh.2, hh.1⟩)
  have hz : ∀ a b : Nat, coPairs yr a b = [] →
      freqM yr a b = 0 ∧ sqiM yr a b = 0 ∧ sqjM yr a b = 0 ∧ siM yr a b = 0 ∧
      sjM yr a b = 0 ∧ sqDiffM yr a b = 0 ∧ cloneSqDiffM n yr a b = 0 := by
    intro a b hab
    refine ⟨?_, ?_, ?_, ?_, ?_, ?_, ?_⟩
    · rw [freqM_eq yr a b hnd, coCount, hab]; rfl
    · rw [sqiM_eq yr a b hnd]; unfold coSum; rw [hab]; rfl
    · rw [sqjM_eq yr a b hnd]; unfold coSum; rw [hab]; rfl
    · rw [siM_eq yr a b hnd]; unfold coSum; rw [hab]; rfl
    · rw [sjM_eq yr a b hnd]; unfold coSum; rw [hab]; rfl
    · rw [sqDiffM_eq yr a b hnd]; unfold coSum; rw [hab]; rfl
    · rw [cloneSqDiffM_eq n yr a b hnd]; unfold coSum; rw [hab]; rfl
  rcases Nat.lt_trichotomy i j with hlt | heq | hlt
  · obtain ⟨hf, hsi2, hsj2, hsi, hsj, hsd, hcsd⟩ := hz i j hnil
    refine ⟨?_, ?_, ?_, ?_⟩
    · unfold cosine
      rw [fillMat_apply, if_neg (fun hh : i = j ∧ i < n => absurd hh.1 hij),
        if_pos ⟨hlt, hj, rfl⟩, if_pos hf]
    · unfold msd
      rw [fillMat_apply, if_neg (fun hh : i = j ∧ i < n => absurd hh.1 hij),
        if_pos ⟨hlt, hj, rfl⟩, if_pos hsd, hf]
      rfl
    · unfold msdClone
      rw [fillMat_apply, if_neg (fun hh : i = j ∧ i < n => absurd hh.1 hij),
        if_pos ⟨hlt, hj, rfl⟩, if_pos hcsd, hf]
      rfl
    · unfold pearson
      rw [fillMat_apply, if_neg (fun hh : i = j ∧ i < n => absurd hh.1 hij),
        if_pos ⟨hlt, hj, rfl⟩, hf, hsi2, hsj2, hsi, hsj]
      rw [if_pos (by norm_num [Real.sqrt_zero])]
  · exact absurd heq hij
  · obtain ⟨hf, hsi2, hsj2, hsi, hsj, hsd, hcsd⟩ := hz j i hnil'
    refine ⟨?_, ?_, ?_, ?_⟩
    · unfold cosine
      rw [fillMat_apply, if_neg (fun hh : i = j ∧ i < n => absurd hh.1 hij),
        if_neg (fun hh : i < j ∧ j < n ∧ (fun _ _ => true) i j = true => absurd hh.1 (by omega)),
        if_pos ⟨hlt, hi, rfl⟩, if_pos hf]
      rfl
    · unfold msd
      rw [fillMat_apply, if_neg (fun hh : i = j ∧ i < n => absurd hh.1 hij),
        if_neg (fun hh : i < j ∧ j < n ∧ (fun _ _ => true) i j = true => absurd hh.1 (by omega)),
        if_pos ⟨hlt, hi, rfl⟩, if_pos hsd, hf]
      rfl
    · unfold msdClone
      rw [fillMat_apply, if_neg (fun hh : i = j ∧ i < n => absurd hh.1 hij),
        if_neg (fun hh : i < j ∧ j < n ∧ (fun _ _ => true) i j = true => absurd hh.1 (by omega)),
        if_pos ⟨hlt, hi, rfl⟩, if_pos hcsd, hf]
      rfl
    · unfold pearson
      rw [fillMat_apply, if_neg (fun hh : i = j ∧ i < n => absurd hh.1 hij),
        if_neg (fun hh : i < j ∧ j < n ∧ (fun _ _ => true) i j = true => absurd hh.1 (by omega)),
        if_pos ⟨hlt, hi, rfl⟩, hf, hsi2, hsj2, hsi, hsj]
      rw [if_pos (by norm_num [Real.sqrt_zero])]
      rfl

/-- C6 witness: two entities rated under disjoint ys. -/
theorem no_shared_ratings_fallback_witness :
    wf 2 yrSplit ∧
    (cosine 2 yrSplit 0 1 = 0 ∧ msd 2 yrSplit 0 1 = 0 ∧ msdClone 2 yrSplit 0 1 = 0 ∧
     pearson 2 yrSplit 0 1 = 0) :=
  ⟨by decide, no_shared_ratings_fallback 2 yrSplit (by decide) 0 1 (by decide) (by decide)
    (by decide) (by decide)⟩

/-- C10: in cosine the division is guarded only by the co-rating count: with
every rating nonzero the divisor sqrt(sqi * sqj) is nonzero whenever
freq[i,j] > 0, but with a zero rating there is an input with freq[i,j] > 0
whose divisor is 0, so the guard alone does not make the division
well-defined. -/
theorem cosine_guard_division :
    (∀ (n : Nat) (yr : YR) (i j : Nat), wf n yr →
      (∀ y ∈ yr, ∀ p ∈ y.2, p.2 ≠ 0) → i ≠ j → 0 < freqM yr i j →
      Real.sqrt (((sqiM yr i j * sqjM yr i j : ℤ) : ℝ)) ≠ 0) ∧
    (0 < freqM yrZero 0 1 ∧
      Real.sqrt (((sqiM yrZero 0 1 * sqjM yrZero 0 1 : ℤ) : ℝ)) = 0) := by
  constructor
  · intro n yr i j hwf hnz _hij hfreq
    have hnd : ∀ y ∈ yr, (y.2.map Prod.fst).Nodup := fun y hy => (hwf y hy).1
    have hcnt : 0 < coCount yr i j := by
      rw [freqM_eq yr i j hnd] at hfreq
      exact_mod_cast hfreq
    obtain ⟨p, hp⟩ : ∃ p, p ∈ coPairs yr i j := by
      refine List.exists_mem_of_ne_nil _ (fun hc => ?_)
      unfold coCount at hcnt
      rw [hc] at hcnt
      simp at hcnt
    obtain ⟨y, hy, hiy, hjy⟩ := coPairs_mem hp
    have hp1 : p.1 ≠ 0 := hnz y hy (i, p.1) hiy
    have hp2 : p.2 ≠ 0 := hnz y hy (j, p.2) hjy
    have hsqi : 0 < sqiM yr i j := by
      rw [sqiM_eq yr i j hnd]
      have hmem : p.1 ^ 2 ∈ (coPairs yr i j).map (fun q => q.1 ^ 2) :=
        List.mem_map.mpr ⟨p, hp, rfl⟩
      have hle : p.1 ^ 2 ≤ ((coPairs yr i j).map (fun q => q.1 ^ 2)).sum := by
        refine List.single_le_sum (fun x hx => ?_) _ hmem
        obtain ⟨q, _, hqx⟩ := List.mem_map.mp hx
        rw [← hqx]
        exact sq_nonneg q.1
      have hpos : 0 < p.1 ^ 2 := by
        have := sq_nonneg p.1
        have hne : p.1 ^ 2 ≠ 0 := pow_ne_zero 2 hp1
        omega
      exact lt_of_lt_of_le hpos hle
    have hsqj : 0 < sqjM yr i j := by
      rw [sqjM_eq yr i j hnd]
      have hmem : p.2 ^ 2 ∈ (coPairs yr i j).map (fun q => q.2 ^ 2) :=
        List.mem_map.mpr ⟨p, hp, rfl⟩
      have hle : p.2 ^ 2 ≤ ((coPairs yr i j).map (fun q => q.2 ^ 2)).sum := by
        refine List.single_le_sum (fun x hx => ?_) _ hmem
        obtain ⟨q, _, hqx⟩ := List.mem_map.mp hx
        rw [← hqx]
        exact sq_nonneg q.2
      have hpos : 0 < p.2 ^ 2 := by
        have := sq_nonneg p.2
        have hne : p.2 ^ 2 ≠ 0 := pow_ne_zero 2 hp2
        omega
      exact lt_of_lt_of_le hpos hle
    have hprod : (0 : ℝ) < ((sqiM yr i j * sqjM yr i j : ℤ) : ℝ) := by
      exact_mod_cast mul_pos hsqi hsqj
    exact ne_of_gt (Real.sqrt_pos.mpr hprod)
  · refine ⟨by decide, ?_⟩
    have h : (sqiM yrZero 0 1 * sqjM yrZero 0 1 : ℤ) = 0 := by decide
    rw [h]
    norm_num [Real.sqrt_zero]

/-- C10 witness: one shared y with nonzero ratings gives a nonzero divisor. -/
theorem cosine_guard_division_witness :
    wf 2 yrNZ ∧ (∀ y ∈ yrNZ, ∀ p ∈ y.2, p.2 ≠ 0) ∧ 0 < freqM yrNZ 0 1 ∧
    Real.sqrt (((sqiM yrNZ 0 1 * sqjM yrNZ 0 1 : ℤ) : ℝ)) ≠ 0 :=
  ⟨by decide, by decide, by decide,
    cosine_guard_division.1 2 yrNZ 0 1 (by decide) (by decide) (by decide) (by decide)⟩

/-- C9: runtime behaviour of the input handling the source actually has: a
negative n_x raises (numpy refuses negative dimensions), an x id at or above
n_x raises (Cython bounds check), but a negative x id in [-n_x, 0) is
silently wrapped around instead of raising, contradicting the fail-fast
contract of the specification. -/
theorem input_check_behaviour :
    simInputCheck (-1) [] = Except.error "negative dimensions are not allowed" ∧
    simInputCheck 2 [(0, [(2, 5)])] = Except.error "index out of bounds" ∧
    simInputCheck 2 [(0, [(-1, 5)])] = Except.ok () :=
  ⟨rfl, rfl, rfl⟩

/-- Cauchy-Schwarz for a list against the all-ones vector: the squared sum is
at most the length times the sum of squares. -/
theorem cauchy_list (l : List Int) :
    l.sum ^ 2 ≤ (l.length : ℤ) * (l.map (fun x => x ^ 2)).sum := by
  induction l with
  | nil => simp
  | cons x t ih =>
    simp only [List.sum_cons, List.map_cons, List.length_cons]
    have hq : (0 : ℤ) ≤ (t.map (fun x => x ^ 2)).sum := by
      refine List.sum_nonneg (fun v hv => ?_)
      obtain ⟨q, _, hqv⟩ := List.mem_map.mp hv
      rw [← hqv]
      exact sq_nonneg q
    by_cases ht : t = []
    · rw [ht]
      simp
    · have hn1 : (1 : ℤ) ≤ (t.length : ℤ) := by
        have := List.length_pos.mpr ht
        omega
      push_cast
      nlinarith [sq_nonneg ((t.length : ℤ) * x - t.sum), ih, hq, hn1,
        mul_nonneg (le_trans zero_le_one hn1) hq]

/-- Casting the integer sum of left components to the reals. -/
theorem cast_sum_fst (P : List (Int × Int)) :
    (((P.map (fun p => p.1)).sum : ℤ) : ℝ) = (P.map (fun p => (p.1 : ℝ))).sum := by
  induction P with
  | nil => simp
  | cons p t ih => simp only [List.map_cons, List.sum_cons, Int.cast_add, ih]

/-- Casting the integer sum of right components to the reals. -/
theorem cast_sum_snd (P : List (Int × Int)) :
    (((P.map (fun p => p.2)).sum : ℤ) : ℝ) = (P.map (fun p => (p.2 : ℝ))).sum := by
  induction P with
  | nil => simp
  | cons p t ih => simp only [List.map_cons, List.sum_cons, Int.cast_add, ih]

/-- Casting the integer sum of squared left components to the reals. -/
theorem cast_sum_fst_sq (P : List (Int × Int)) :
    (((P.map (fun p => p.1 ^ 2)).sum : ℤ) : ℝ) = (P.map (fun p => (p.1 : ℝ) ^ 2)).sum := by
  induction P with
  | nil => simp
  | cons p t ih => simp only [List.map_cons, List.sum_cons, Int.cast_add, Int.cast_pow, ih]

/-- Casting the integer sum of squared right components to the reals. -/
theorem cast_sum_snd_sq (P : List (Int × Int)) :
    (((P.map (fun p => p.2 ^ 2)).sum : ℤ) : ℝ) = (P.map (fun p => (p.2 : ℝ) ^ 2)).sum := by
  induction P with
  | nil => simp
  | cons p t ih => simp only [List.map_cons, List.sum_cons, Int.cast_add, Int.cast_pow, ih]

/-- Casting the integer sum of componentwise products to the reals. -/
theorem cast_sum_prod (P : List (Int × Int)) :
    (((P.map (fun p => p.1 * p.2)).sum : ℤ) : ℝ)
      = (P.map (fun p => (p.1 : ℝ) * (p.2 : ℝ))).sum := by
  induction P with
  | nil => simp
  | cons p t ih => simp only [List.map_cons, List.sum_cons, Int.cast_add, Int.cast_mul, ih]

/-- Affine relation between paired ratings: the right sums follow the left
sums. -/
theorem affine_sum (P : List (Int × Int)) (a b : ℝ)
    (hab : ∀ p ∈ P, (p.2 : ℝ) = a * (p.1 : ℝ) + b) :
    (P.map (fun p => (p.2 : ℝ))).sum = a * (P.map (fun p => (p.1 : ℝ))).sum +
      (P.length : ℝ) * b := by
  induction P with
  | nil => simp
  | cons p t ih =>
    have hp := hab p (by simp)
    have iht := ih (fun q hq => hab q (by simp [hq]))
    simp only [List.map_cons, List.sum_cons, List.length_cons]
    rw [hp, iht]
    push_cast
    ring

/-- Affine relation between paired ratings: the product sums follow the left
sums. -/
theorem affine_prod (P : List (Int × Int)) (a b : ℝ)
    (hab : ∀ p ∈ P, (p.2 : ℝ) = a * (p.1 : ℝ) + b) :
    (P.map (fun p => (p.1 : ℝ) * (p.2 : ℝ))).sum
      = a * (P.map (fun p => (p.1 : ℝ) ^ 2)).sum + b * (P.map (fun p => (p.1 : ℝ))).sum := by
  induction P with
  | nil => simp
  | cons p t ih =>
    have hp := hab p (by simp)
    have iht := ih (fun q hq => hab q (by simp [hq]))
    simp only [List.map_cons, List.sum_cons]
    rw [hp, iht]
    ring

/-- Affine relation between paired ratings: the right sums of squares follow
the left sums. -/
theorem affine_sq (P : List (Int × Int)) (a b : ℝ)
    (hab : ∀ p ∈ P, (p.2 : ℝ) = a * (p.1 : ℝ) + b) :
    (P.map (fun p => (p.2 : ℝ) ^ 2)).sum = a ^ 2 * (P.map (fun p => (p.1 : ℝ) ^ 2)).sum +
      2 * a * b * (P.map (fun p => (p.1 : ℝ))).sum + (P.length : ℝ) * b ^ 2 := by
  induction P with
  | nil => simp
  | cons p t ih =>
    have hp := hab p (by simp)
    have iht := ih (fun q hq => hab q (by simp [hq]))
    simp only [List.map_cons, List.sum_cons, List.length_cons]
    rw [hp, iht]
    push_cast
    ring

/-- Core algebra of the Pearson formula under a positive affine relation with
nonzero variance on the left side: the combination formula evaluates to 1. -/
theorem pearson_core (P : List (Int × Int)) (a b : ℝ) (ha : 0 < a)
    (hab : ∀ p ∈ P, (p.2 : ℝ) = a * (p.1 : ℝ) + b)
    (hD : (P.length : ℤ) * (P.map (fun p => p.1 ^ 2)).sum -
        ((P.map (fun p => p.1)).sum) ^ 2 ≠ 0) :
    (if Real.sqrt (((((P.length : ℤ) * (P.map (fun p => p.1 ^ 2)).sum -
            ((P.map (fun p => p.1)).sum) ^ 2) *
          ((P.length : ℤ) * (P.map (fun p => p.2 ^ 2)).sum -
            ((P.map (fun p => p.2)).sum) ^ 2) : ℤ) : ℝ)) = 0
     then (0 : ℝ)
     else (((P.length : ℤ) * (P.map (fun p => p.1 * p.2)).sum -
         ((P.map (fun p => p.1)).sum) * ((P.map (fun p => p.2)).sum) : ℤ) : ℝ) /
       Real.sqrt (((((P.length : ℤ) * (P.map (fun p => p.1 ^ 2)).sum -
            ((P.map (fun p => p.1)).sum) ^ 2) *
          ((P.length : ℤ) * (P.map (fun p => p.2 ^ 2)).sum -
            ((P.map (fun p => p.2)).sum) ^ 2) : ℤ) : ℝ))) = 1 := by
  have hL : ((P.map (fun p => p.1)).sum) ^ 2 ≤
      (P.length : ℤ) * (P.map (fun p => p.1 ^ 2)).sum := by
    have hc := cauchy_list (P.map (fun p => p.1))
    rw [List.length_map, List.map_map] at hc
    exact hc
  have hDpos : 0 < (P.length : ℤ) * (P.map (fun p => p.1 ^ 2)).sum -
      ((P.map (fun p => p.1)).sum) ^ 2 := by omega
  have hDR : (0 : ℝ) < (((P.length : ℤ) * (P.map (fun p => p.1 ^ 2)).sum -
      ((P.map (fun p => p.1)).sum) ^ 2 : ℤ) : ℝ) := by exact_mod_cast hDpos
  have hrad : ((((P.length : ℤ) * (P.map (fun p => p.1 ^ 2)).sum -
          ((P.map (fun p => p.1)).sum) ^ 2) *
        ((P.length : ℤ) * (P.map (fun p => p.2 ^ 2)).sum -
          ((P.map (fun p => p.2)).sum) ^ 2) : ℤ) : ℝ)
      = (a * (((P.length : ℤ) * (P.map (fun p => p.1 ^ 2)).sum -
          ((P.map (fun p => p.1)).sum) ^ 2 : ℤ) : ℝ)) ^ 2 := by
    simp only [Int.cast_mul, Int.cast_sub, Int.cast_pow, Int.cast_natCast,
      cast_sum_fst, cast_sum_snd, cast_sum_fst_sq, cast_sum_snd_sq, cast_sum_prod]
    rw [affine_sq P a b hab, affine_sum P a b hab]
    ring
  have hpos : (0 : ℝ) < a * (((P.length : ℤ) * (P.map (fun p => p.1 ^ 2)).sum -
      ((P.map (fun p => p.1)).sum) ^ 2 : ℤ) : ℝ) := mul_pos ha hDR
  have hnum : (((P.length : ℤ) * (P.map (fun p => p.1 * p.2)).sum -
      ((P.map (fun p => p.1)).sum) * ((P.map (fun p => p.2)).sum) : ℤ) : ℝ)
      = a * (((P.length : ℤ) * (P.map (fun p => p.1 ^ 2)).sum -
          ((P.map (fun p => p.1)).sum) ^ 2 : ℤ) : ℝ) := by
    simp only [Int.cast_mul, Int.cast_sub, Int.cast_pow, Int.cast_natCast,
      cast_sum_fst, cast_sum_snd, cast_sum_fst_sq, cast_sum_snd_sq, cast_sum_prod]
    rw [affine_prod P a b hab, affine_sum P a b hab]
    ring
  rw [hrad, Real.sqrt_sq (le_of_lt hpos), if_neg (ne_of_gt hpos), hnum]
  exact div_self (ne_of_gt hpos)

/-- C8 counterexample: with a single co-rating the relation r_1 = 1 * r_0 + 1
holds with a > 0, yet pearson reports 0, not 1, because the variance of the
co-ratings is zero and the denominator guard fires. -/
theorem pearson_affine_cex :
    wf 2 yrConst ∧ (0 : ℝ) < 1 ∧ coPairs yrConst 0 1 ≠ [] ∧
    (∀ p ∈ coPairs yrConst 0 1, (p.2 : ℝ) = 1 * (p.1 : ℝ) + 1) ∧
    pearson 2 yrConst 0 1 ≠ 1 := by
  refine ⟨by decide, by norm_num, by decide, ?_, ?_⟩
  · intro p hp
    have hc : coPairs yrConst 0 1 = [(2, 3)] := by decide
    rw [hc] at hp
    simp at hp
    rw [hp]
    norm_num
  · have h01 : pearson 2 yrConst 0 1 = 0 := by
      unfold pearson
      rw [fillMat_apply,
        if_neg (fun hh : (0 : Nat) = 1 ∧ (0 : Nat) < 2 => absurd hh.1 (by omega)),
        if_pos ⟨by omega, by omega, rfl⟩]
      have h1 : freqM yrConst 0 1 = 1 := by decide
      have h2 : sqiM yrConst 0 1 = 4 := by decide
      have h3 : sqjM yrConst 0 1 = 9 := by decide
      have h4 : siM yrConst 0 1 = 2 := by decide
      have h5 : sjM yrConst 0 1 = 3 := by decide
      rw [h1, h2, h3, h4, h5, if_pos (by norm_num [Real.sqrt_zero])]
    rw [h01]
    norm_num

/-- C8 amended: for every well-formed input and pair i != j with at least one
co-rating whose ratings satisfy r_j = a * r_i + b with a > 0 on every co-rated
y, pearson returns sim[i,j] = 1 provided entity i's co-ratings are not all
identical (the variance term n*sqi - si^2 is nonzero, so the denominator does
not vanish). -/
theorem pearson_affine_amended (n : Nat) (yr : YR) (hwf : wf n yr) (i j : Nat)
    (hi : i < n) (hj : j < n) (hij : i ≠ j) (a b : ℝ) (ha : 0 < a)
    (hab : ∀ p ∈ coPairs yr i j, (p.2 : ℝ) = a * (p.1 : ℝ) + b)
    (_hne : coPairs yr i j ≠ [])
    (hD : (coCount yr i j : ℤ) * coSum (fun x _ => x ^ 2) yr i j -
        (coSum (fun x _ => x) yr i j) ^ 2 ≠ 0) :
    pearson n yr i j = 1 := by
  have hnd : ∀ y ∈ yr, (y.2.map Prod.fst).Nodup := fun y hy => (hwf y hy).1
  rcases Nat.lt_trichotomy i j with hlt | heq | hlt
  · unfold pearson
    rw [fillMat_apply, if_neg (fun hh : i = j ∧ i < n => absurd hh.1 hij),
      if_pos ⟨hlt, hj, rfl⟩, freqM_eq yr i j hnd, prodsM_eq yr i j hnd,
      sqiM_eq yr i j hnd, sqjM_eq yr i j hnd, siM_eq yr i j hnd, sjM_eq yr i j hnd]
    exact pearson_core (coPairs yr i j) a b ha hab hD
  · exact absurd heq hij
  · unfold pearson
    rw [fillMat_apply, if_neg (fun hh : i = j ∧ i < n => absurd hh.1 hij),
      if_neg (fun hh : i < j ∧ j < n ∧ (fun _ _ => true) i j = true =>
        absurd hh.1 (by omega)),
      if_pos ⟨hlt, hi, rfl⟩, freqM_eq yr j i hnd, prodsM_eq yr j i hnd,
      sqiM_eq yr j i hnd, sqjM_eq yr j i hnd, siM_eq yr j i hnd, sjM_eq yr j i hnd]
    simp only [id_eq]
    have hswap := coPairs_swap yr i j
    have han : a ≠ 0 := ne_of_gt ha
    have hab' : ∀ q ∈ coPairs yr j i, (q.2 : ℝ) = a⁻¹ * (q.1 : ℝ) + (-(b / a)) := by
      intro q hq
      rw [hswap] at hq
      obtain ⟨p, hp, hpq⟩ := List.mem_map.mp hq
      rw [← hpq]
      show (p.1 : ℝ) = a⁻¹ * (p.2 : ℝ) + (-(b / a))
      rw [hab p hp]
      field_simp
    have hcast : ((((coPairs yr i j).length : ℤ) *
          ((coPairs yr i j).map (fun p => p.2 ^ 2)).sum -
          (((coPairs yr i j).map (fun p => p.2)).sum) ^ 2 : ℤ) : ℝ)
        = a ^ 2 * ((((coPairs yr i j).length : ℤ) *
          ((coPairs yr i j).map (fun p => p.1 ^ 2)).sum -
          (((coPairs yr i j).map (fun p => p.1)).sum) ^ 2 : ℤ) : ℝ) := by
      simp only [Int.cast_mul, Int.cast_sub, Int.cast_pow, Int.cast_natCast,
        cast_sum_fst, cast_sum_snd, cast_sum_fst_sq, cast_sum_snd_sq]
      rw [affine_sq (coPairs yr i j) a b hab, affine_sum (coPairs yr i j) a b hab]
      ring
    have hDne : ((coPairs yr j i).length : ℤ) *
        ((coPairs yr j i).map (fun p => p.1 ^ 2)).sum -
        (((coPairs yr j i).map (fun p => p.1)).sum) ^ 2 ≠ 0 := by
      rw [hswap, List.map_map, List.map_map, List.length_map]
      show ((coPairs yr i j).length : ℤ) *
          ((coPairs yr i j).map (fun p => p.2 ^ 2)).sum -
          (((coPairs yr i j).map (fun p => p.2)).sum) ^ 2 ≠ 0
      intro h0
      have hc0 : ((((coPairs yr i j).length : ℤ) *
          ((coPairs yr i j).map (fun p => p.2 ^ 2)).sum -
          (((coPairs yr i j).map (fun p => p.2)).sum) ^ 2 : ℤ) : ℝ) = 0 := by
        exact_mod_cast h0
      rw [hcast] at hc0
      rcases mul_eq_zero.mp hc0 with h | h
      · exact absurd h (pow_ne_zero 2 han)
      · have hz : (((coPairs yr i j).length : ℤ) *
            ((coPairs yr i j).map (fun p => p.1 ^ 2)).sum -
            (((coPairs yr i j).map (fun p => p.1)).sum) ^ 2 : ℤ) = 0 := by
          exact_mod_cast h
        exact hD hz
    exact pearson_core (coPairs yr j i) a⁻¹ (-(b / a)) (inv_pos.mpr ha) hab' hDne

/-- C8 amended witness: two co-ratings related by r_1 = 2 * r_0 + 1 with
nonzero variance give Pearson similarity 1. -/
theorem pearson_affine_amended_witness :
    wf 2 yrAff ∧ (0 : ℝ) < 2 ∧ coPairs yrAff 0 1 ≠ [] ∧
    (∀ p ∈ coPairs yrAff 0 1, (p.2 : ℝ) = 2 * (p.1 : ℝ) + 1) ∧
    ((coCount yrAff 0 1 : ℤ) * coSum (fun x _ => x ^ 2) yrAff 0 1 -
        (coSum (fun x _ => x) yrAff 0 1) ^ 2 ≠ 0) ∧
    pearson 2 yrAff 0 1 = 1 := by
  have hab : ∀ p ∈ coPairs yrAff 0 1, (p.2 : ℝ) = 2 * (p.1 : ℝ) + 1 := by
    intro p hp
    have hc : coPairs yrAff 0 1 = [(1, 3), (2, 5)] := by decide
    rw [hc] at hp
    rcases List.mem_cons.mp hp with h | h
    · rw [h]; norm_num
    · rw [List.mem_singleton.mp h]; norm_num
  refine ⟨by decide, by norm_num, by decide, hab, by decide, ?_⟩
  exact pearson_affine_amended 2 yrAff (by decide) 0 1 (by decide) (by decide)
    (by decide) 2 1 (by norm_num) hab (by decide) (by decide)

end Surprise
